import Mathlib

set_option maxRecDepth 4000

/-!
Verification development for the UNITE repository: two TCP demo flows.

* JSON flow: a client `json.Marshal`s a two-field `Message` struct
  (fields `User`, `Text`, JSON names `user`, `text`) and writes the bytes
  on one connection; a server accepts once, performs one `conn.Read` into a
  1024-byte buffer and `json.Unmarshal`s exactly the `n` received bytes.
* Echo flow: a client writes one newline-terminated line and reads one line
  back, discarding the read error; a server accepts once and loops,
  reading newline-terminated lines with `bufio.Reader.ReadString` and
  writing each received line back verbatim until a read fails.

The wire is modelled as a list of Unicode characters (Go strings that reach
the JSON encoder are interpreted as sequences of Unicode code points, the
conventional reading of valid-UTF-8 Go strings); byte counts are tracked
with each character's UTF-8 size.
-/

/-- The `Message` struct of the JSON client and the JSON server:
two string fields with JSON tags `user` and `text`. -/
structure Message where
  user : List Char
  text : List Char
deriving DecidableEq

/-- Lowercase hexadecimal digit, as produced by Go's JSON encoder. -/
def hexDigit (n : Nat) : Char :=
  if n < 10 then Char.ofNat (48 + n) else Char.ofNat (87 + n)

/-- Go `encoding/json` string escaping for one character (default encoder,
HTML escaping on): `"`, `\`, newline, carriage return and tab get two-byte
escapes; other control characters and `<`, `>`, `&` become `\u00XX`;
U+2028 and U+2029 become ` `/` `; everything else is copied. -/
def escapeChar (c : Char) : List Char :=
  if c = '"' then ['\\', '"']
  else if c = '\\' then ['\\', '\\']
  else if c = '\n' then ['\\', 'n']
  else if c = '\r' then ['\\', 'r']
  else if c = '\t' then ['\\', 't']
  else if c.toNat < 32 ∨ c = '<' ∨ c = '>' ∨ c = '&' then
    ['\\', 'u', '0', '0', hexDigit (c.toNat / 16), hexDigit (c.toNat % 16)]
  else if c.toNat = 8232 ∨ c.toNat = 8233 then
    ['\\', 'u', '2', '0', '2', hexDigit (c.toNat % 16)]
  else [c]

/-- Escape a whole string, character by character. -/
def escapeString : List Char → List Char
  | [] => []
  | c :: r => escapeChar c ++ escapeString r

/-- The last JSON object member produced by the encoder:
`"text":` followed by the quoted, escaped text, followed by the closing
brace of the object. -/
def lastMember (t : List Char) : List Char :=
  '"' :: 't' :: 'e' :: 'x' :: 't' :: '"' :: ':' :: '"' ::
    (escapeString t ++ ['"', '}'])

/-- The member list of the encoded object: `"user":` with the quoted,
escaped user value, a comma, then the `text` member and closing brace. -/
def membersStr (u t : List Char) : List Char :=
  '"' :: 'u' :: 's' :: 'e' :: 'r' :: '"' :: ':' :: '"' ::
    (escapeString u ++ ('"' :: ',' :: lastMember t))

/-- `json.Marshal` of a `Message`, as performed by the JSON client:
a compact object with the two members in struct order. -/
def marshalMessage (m : Message) : List Char :=
  '{' :: membersStr m.user m.text

/-- JSON whitespace per RFC 8259 (and Go's scanner): space, tab,
newline, carriage return. -/
def isWs (c : Char) : Bool :=
  c = ' ' || c = '\t' || c = '\n' || c = '\r'

/-- Drop leading JSON whitespace. -/
def skipWs : List Char → List Char
  | [] => []
  | c :: r => if isWs c then skipWs r else c :: r

/-- Decode table for two-character escape sequences in a JSON string
literal, as accepted by Go's decoder. -/
def unescapeChar (c : Char) : Option Char :=
  if c = '"' then some '"'
  else if c = '\\' then some '\\'
  else if c = '/' then some '/'
  else if c = 'b' then some (Char.ofNat 8)
  else if c = 'f' then some (Char.ofNat 12)
  else if c = 'n' then some '\n'
  else if c = 'r' then some '\r'
  else if c = 't' then some '\t'
  else none

/-- Hexadecimal digit test (JSON `\uXXXX` escapes). -/
def isHex (c : Char) : Bool :=
  ('0' ≤ c && c ≤ '9') || ('a' ≤ c && c ≤ 'f') || ('A' ≤ c && c ≤ 'F')

/-- Value of a hexadecimal digit. -/
def hexVal (c : Char) : Nat :=
  if c ≤ '9' then c.toNat - 48
  else if c ≤ 'F' then c.toNat - 55
  else c.toNat - 87

/-- Parse the body of a JSON string literal (the opening quote already
consumed) up to and including the closing quote, returning the decoded
characters and the rest of the input.  Mirrors Go's decoder on the shapes
arising here: raw control characters are rejected, `\uXXXX` escapes are
decoded (an escape denoting a surrogate code unit yields U+FFFD; pairing
of consecutive surrogate escapes is not modelled, no input in this
development contains them), unterminated literals fail. -/
def parseStringBody : List Char → Option (List Char × List Char)
  | [] => none
  | c :: rest =>
    if c = '"' then some ([], rest)
    else if c = '\\' then
      match rest with
      | [] => none
      | e :: rest2 =>
        if e = 'u' then
          match rest2 with
          | a :: b :: g :: d :: rest3 =>
            if isHex a && isHex b && isHex g && isHex d then
              let n := ((hexVal a * 16 + hexVal b) * 16 + hexVal g) * 16 + hexVal d
              let ch := if 55296 ≤ n ∧ n ≤ 57343 then Char.ofNat 65533 else Char.ofNat n
              (parseStringBody rest3).map (fun p => (ch :: p.1, p.2))
            else none
          | _ => none
        else
          match unescapeChar e with
          | some c2 => (parseStringBody rest2).map (fun p => (c2 :: p.1, p.2))
          | none => none
    else if c.toNat < 32 then none
    else (parseStringBody rest).map (fun p => (c :: p.1, p.2))

/-- Assign a decoded object member to the struct field whose JSON tag it
names, as `json.Unmarshal` does; unknown keys are ignored. -/
def setField (m : Message) (key val : List Char) : Message :=
  if key = ['u', 's', 'e', 'r'] then { m with user := val }
  else if key = ['t', 'e', 'x', 't'] then { m with text := val }
  else m

/-- Parse the members of a JSON object whose values are string literals
(the only value shape the `Message` exchange produces), starting at the
first member's opening quote, ending at the object's closing brace.
The `fuel` argument bounds the number of members and only drives
termination. -/
def parseMembers : Nat → List Char → Message → Option (Message × List Char)
  | 0, _, _ => none
  | fuel + 1, l, acc =>
    match l with
    | [] => none
    | c :: rest =>
      if c = '"' then
        match parseStringBody rest with
        | none => none
        | some (key, r1) =>
          match skipWs r1 with
          | [] => none
          | c2 :: r2 =>
            if c2 = ':' then
              match skipWs r2 with
              | [] => none
              | c3 :: r3 =>
                if c3 = '"' then
                  match parseStringBody r3 with
                  | none => none
                  | some (val, r4) =>
                    match skipWs r4 with
                    | [] => none
                    | c4 :: r5 =>
                      if c4 = ',' then
                        parseMembers fuel (skipWs r5) (setField acc key val)
                      else if c4 = '}' then
                        some (setField acc key val, r5)
                      else none
                else none
            else none
      else none

/-- `json.Unmarshal` of the received bytes into a `Message`, as performed
by the JSON server: a single JSON object whose members are assigned to the
struct fields by JSON tag; absent members leave the zero value; anything
but one complete object (plus surrounding whitespace) is an error,
modelled as `none`. -/
def unmarshalMessage (l : List Char) : Option Message :=
  match skipWs l with
  | [] => none
  | c :: r =>
    if c = '{' then
      match skipWs r with
      | [] => none
      | c2 :: r2 =>
        if c2 = '}' then
          if skipWs r2 = [] then some ⟨[], []⟩ else none
        else
          match parseMembers (l.length + 1) (c2 :: r2) ⟨[], []⟩ with
          | some (m, rest) => if skipWs rest = [] then some m else none
          | none => none
    else none

/-- UTF-8 byte length of a character sequence. -/
def utf8Len : List Char → Nat
  | [] => 0
  | c :: r => c.utf8Size + utf8Len r

/-- The longest character-aligned prefix whose UTF-8 encoding fits in `k`
bytes: what a single `conn.Read` into a `k`-byte buffer delivers when the
peer's whole payload is available (a character split at the byte boundary
cannot be completed and is dropped with the rest). -/
def takeBytes (k : Nat) : List Char → List Char
  | [] => []
  | c :: r => if c.utf8Size ≤ k then c :: takeBytes (k - c.utf8Size) r else []

/-- The JSON server's processing of an incoming payload `wire`: one read
into the fixed 1024-byte buffer (whose cells past the received count `n`
hold arbitrary leftover contents `junk`), then `json.Unmarshal` of
`buf[:n]`, exactly the bytes actually received. -/
def jsonServerProcess (wire junk : List Char) : Option Message :=
  let received := takeBytes 1024 wire
  let n := received.length
  let buf := received ++ junk
  unmarshalMessage (buf.take n)

/-- The three fatal error sites of the JSON server `main`. -/
inductive SrvErr where
  | acceptErr
  | readErr
  | decodeErr
deriving DecidableEq

/-- The JSON server `main` after `Listen`: `Accept`, one `Read`, then
`Unmarshal`; every error makes the process terminate abnormally (Go
`panic`), modelled as `Except.error`; otherwise the decoded `Message` is
printed.  `acceptOk` and `readOk` are the outcomes of the two fallible
socket operations. -/
def jsonServerRun (acceptOk readOk : Bool) (wire junk : List Char) :
    Except SrvErr Message :=
  if acceptOk = false then .error .acceptErr
  else if readOk = false then .error .readErr
  else
    match jsonServerProcess wire junk with
    | some m => .ok m
    | none => .error .decodeErr

/-- `bufio.Reader.ReadString` with delimiter newline over a stream whose
remaining bytes are `input` (end of list = the peer has closed, so the
next read reports end of stream).  Result: `((data, ok), rest)` where
`data` is everything read up to and including the delimiter, `ok` is
`true` exactly when the delimiter was found (Go: `err == nil`), and
`rest` is the rest of the stream; on end of stream the data read so far
is returned with `ok = false`. -/
def readLine : List Char → (List Char × Bool) × List Char
  | [] => (([], false), [])
  | c :: rest =>
    if c = '\n' then (([c], true), rest)
    else
      let r := readLine rest
      ((c :: r.1.1, r.1.2), r.2)

/-- The echo server's receive loop over the whole incoming stream:
each successful `ReadString` yields one line that is printed and written
back; the first failed read breaks the loop.  Returns the list of lines
written back to the peer, in order.  `fuel` only drives termination;
each successful read consumes at least the delimiter. -/
def echoServerWrites : Nat → List Char → List (List Char)
  | 0, _ => []
  | fuel + 1, input =>
    match readLine input with
    | ((line, true), rest) => line :: echoServerWrites fuel rest
    | ((_, false), _) => []

/-- The echo server's loop on an accepted connection whose incoming
stream is `input`. -/
def echoServer (input : List Char) : List (List Char) :=
  echoServerWrites (input.length + 1) input

/-- Concatenation of the server's writes: the byte stream the client
observes coming back. -/
def concatWrites : List (List Char) → List Char
  | [] => []
  | w :: ws => w ++ concatWrites ws

/-- The echo server loop with the outcome of each `conn.Write` made
explicit: `wf i` tells whether the `i`-th write succeeds.  The source
discards `conn.Write`'s results, so the write outcome is recorded next to
each line but never consulted. -/
def echoServerWritesW (wf : Nat → Bool) : Nat → Nat → List Char → List (List Char × Bool)
  | _, 0, _ => []
  | i, fuel + 1, input =>
    match readLine input with
    | ((line, true), rest) => (line, wf i) :: echoServerWritesW wf (i + 1) fuel rest
    | ((_, false), _) => []

/-- The echo server loop starting at write index 0. -/
def echoServerW (wf : Nat → Bool) (input : List Char) : List (List Char × Bool) :=
  echoServerWritesW wf 0 (input.length + 1) input

/-- The echo client's read of the server's response stream: one
`ReadString` whose error is discarded (`resp, _ := ...`); the returned
data is printed as the response. -/
def echoClientResp (serverOut : List Char) : List Char :=
  (readLine serverOut).1.1

/-- Whether the echo client's single line-read succeeded (the discarded
error was nil). -/
def echoClientReadOk (serverOut : List Char) : Bool :=
  (readLine serverOut).1.2

/-- States of the echo server: listening (holding the incoming
connection's stream, not yet accepted), connected (accepted, nothing read
yet), echoing (at least one line echoed), closed. -/
inductive EchoState where
  | listening (input : List Char)
  | connected (rest : List Char)
  | echoing (rest : List Char)
  | closed
deriving DecidableEq

/-- Observable events of the echo server. -/
inductive EchoEvent where
  | accept
  | echo (line : List Char)
  | close
deriving DecidableEq

/-- One step of the echo server: accept from listening; in connected or
echoing, one `ReadString` either echoes the line or, on failure, closes
the connection; closed is terminal. -/
def echoStep : EchoState → EchoState × Option EchoEvent
  | .listening input => (.connected input, some .accept)
  | .connected rest =>
    match readLine rest with
    | ((line, true), r) => (.echoing r, some (.echo line))
    | ((_, false), _) => (.closed, some .close)
  | .echoing rest =>
    match readLine rest with
    | ((line, true), r) => (.echoing r, some (.echo line))
    | ((_, false), _) => (.closed, some .close)
  | .closed => (.closed, none)

/-- Run the echo server state machine, collecting events until it stops
emitting them; `fuel` only drives termination. -/
def echoMachineRun : Nat → EchoState → List EchoEvent
  | 0, _ => []
  | fuel + 1, s =>
    match echoStep s with
    | (s2, some e) => e :: echoMachineRun fuel s2
    | (_, none) => []

/-- The event trace of one echo server run on an incoming connection with
stream `input`. -/
def echoTrace (input : List Char) : List EchoEvent :=
  echoMachineRun (input.length + 3) (.listening input)

/-- Number of connections held in a state. -/
def activeConns : EchoState → Nat
  | .listening _ => 0
  | .connected _ => 1
  | .echoing _ => 1
  | .closed => 0

/-- Whether a state is `echoing` or `closed` (the only states reachable
from `echoing`). -/
def isEchoingOrClosed : EchoState → Bool
  | .echoing _ => true
  | .closed => true
  | _ => false

/-- Whether a state is the pre-accept `listening` state. -/
def isListeningState : EchoState → Bool
  | .listening _ => true
  | _ => false

/-- Number of `accept` events in a trace. -/
def countAccepts : List EchoEvent → Nat
  | [] => 0
  | .accept :: r => countAccepts r + 1
  | _ :: r => countAccepts r

/-- `p` is a prefix of `l`. -/
def isPre (p l : List Char) : Prop := ∃ r, p ++ r = l

theorem isPre_nil (l : List Char) : isPre [] l := ⟨l, rfl⟩

theorem isPre_refl (l : List Char) : isPre l l := ⟨[], List.append_nil l⟩

theorem isPre_of_nil {q : List Char} (h : isPre q []) : q = [] := by
  obtain ⟨r, hr⟩ := h
  exact List.append_eq_nil.mp hr |>.1

theorem isPre_cons_cases {q : List Char} {a : Char} {l : List Char}
    (h : isPre q (a :: l)) : q = [] ∨ ∃ q2, q = a :: q2 ∧ isPre q2 l := by
  obtain ⟨r, hr⟩ := h
  cases q with
  | nil => exact Or.inl rfl
  | cons b q2 =>
    rw [List.cons_append] at hr
    injection hr with h1 h2
    exact Or.inr ⟨q2, by rw [h1], ⟨r, h2⟩⟩

theorem isPre_cons {q l : List Char} (a : Char) (h : isPre q l) :
    isPre (a :: q) (a :: l) := by
  obtain ⟨r, hr⟩ := h
  exact ⟨r, by rw [List.cons_append, hr]⟩

theorem isPre_append_cases {q x y : List Char} (h : isPre q (x ++ y)) :
    isPre q x ∨ ∃ q2, q = x ++ q2 ∧ isPre q2 y := by
  induction x generalizing q with
  | nil =>
    exact Or.inr ⟨q, rfl, by simpa using h⟩
  | cons a x2 ih =>
    rw [List.cons_append] at h
    rcases isPre_cons_cases h with rfl | ⟨q2, rfl, h2⟩
    · exact Or.inl (isPre_nil _)
    · rcases ih h2 with h3 | ⟨q3, rfl, h3⟩
      · exact Or.inl (isPre_cons a h3)
      · exact Or.inr ⟨q3, by rw [List.cons_append], h3⟩

theorem isPre_length {q l : List Char} (h : isPre q l) : q.length ≤ l.length := by
  obtain ⟨r, hr⟩ := h
  rw [← hr, List.length_append]
  omega

theorem skipWs_cons_not {c : Char} {x : List Char} (h : isWs c = false) :
    skipWs (c :: x) = c :: x := by
  simp [skipWs, h]

theorem hexDigit_isHex {n : Nat} (h : n < 16) : isHex (hexDigit n) = true := by
  interval_cases n <;> decide

theorem hexVal_hexDigit {n : Nat} (h : n < 16) : hexVal (hexDigit n) = n := by
  interval_cases n <;> decide

theorem psb_close (x : List Char) : parseStringBody ('"' :: x) = some ([], x) := by
  rw [parseStringBody.eq_def]
  simp

theorem psb_esc_quote (x : List Char) :
    parseStringBody ('\\' :: '"' :: x) =
      (parseStringBody x).map (fun p => ('"' :: p.1, p.2)) := by
  rw [parseStringBody.eq_def]
  simp [unescapeChar]

theorem psb_esc_backslash (x : List Char) :
    parseStringBody ('\\' :: '\\' :: x) =
      (parseStringBody x).map (fun p => ('\\' :: p.1, p.2)) := by
  rw [parseStringBody.eq_def]
  simp [unescapeChar]

theorem psb_esc_n (x : List Char) :
    parseStringBody ('\\' :: 'n' :: x) =
      (parseStringBody x).map (fun p => ('\n' :: p.1, p.2)) := by
  rw [parseStringBody.eq_def]
  simp [unescapeChar]

theorem psb_esc_r (x : List Char) :
    parseStringBody ('\\' :: 'r' :: x) =
      (parseStringBody x).map (fun p => ('\r' :: p.1, p.2)) := by
  rw [parseStringBody.eq_def]
  simp [unescapeChar]

theorem psb_esc_t (x : List Char) :
    parseStringBody ('\\' :: 't' :: x) =
      (parseStringBody x).map (fun p => ('\t' :: p.1, p.2)) := by
  rw [parseStringBody.eq_def]
  simp [unescapeChar]

theorem psb_u (a b g d : Char) (x : List Char) :
    parseStringBody ('\\' :: 'u' :: a :: b :: g :: d :: x) =
      (if (isHex a && isHex b && isHex g && isHex d) = true then
        (parseStringBody x).map (fun p =>
          ((if 55296 ≤ ((hexVal a * 16 + hexVal b) * 16 + hexVal g) * 16 + hexVal d ∧
                ((hexVal a * 16 + hexVal b) * 16 + hexVal g) * 16 + hexVal d ≤ 57343 then
              Char.ofNat 65533
            else
              Char.ofNat (((hexVal a * 16 + hexVal b) * 16 + hexVal g) * 16 + hexVal d))
            :: p.1, p.2))
      else none) := by
  rw [parseStringBody.eq_def]
  simp

theorem psb_other {c : Char} (x : List Char) (h1 : ¬c = '"') (h2 : ¬c = '\\')
    (h3 : ¬c.toNat < 32) :
    parseStringBody (c :: x) =
      (parseStringBody x).map (fun p => (c :: p.1, p.2)) := by
  rw [parseStringBody.eq_def]
  simp only [if_neg h1, if_neg h2, if_neg h3]

/-- Stepping lemma: the parser consumes the escape sequence of one
character and yields exactly that character. -/
theorem parseStringBody_escapeChar (c : Char) (x : List Char) :
    parseStringBody (escapeChar c ++ x) =
      (parseStringBody x).map (fun p => (c :: p.1, p.2)) := by
  by_cases h1 : c = '"'
  · subst h1; exact psb_esc_quote x
  by_cases h2 : c = '\\'
  · subst h2; exact psb_esc_backslash x
  by_cases h3 : c = '\n'
  · subst h3; exact psb_esc_n x
  by_cases h4 : c = '\r'
  · subst h4; exact psb_esc_r x
  by_cases h5 : c = '\t'
  · subst h5; exact psb_esc_t x
  by_cases h6 : c.toNat < 32 ∨ c = '<' ∨ c = '>' ∨ c = '&'
  · have ht : c.toNat < 63 := by
      rcases h6 with h | h | h | h
      · omega
      all_goals rw [h]; decide
    have hhi : c.toNat / 16 < 16 := by omega
    have hlo : c.toNat % 16 < 16 := by omega
    rw [escapeChar, if_neg h1, if_neg h2, if_neg h3, if_neg h4, if_neg h5, if_pos h6]
    simp only [List.cons_append, List.nil_append]
    rw [psb_u]
    rw [if_pos (by
      rw [hexDigit_isHex hhi, hexDigit_isHex hlo]
      decide)]
    have hv0 : hexVal '0' = 0 := by decide
    rw [hexVal_hexDigit hhi, hexVal_hexDigit hlo, hv0]
    have hn : ((0 * 16 + 0) * 16 + c.toNat / 16) * 16 + c.toNat % 16 = c.toNat := by
      omega
    rw [hn]
    rw [if_neg (by omega : ¬(55296 ≤ c.toNat ∧ c.toNat ≤ 57343)), Char.ofNat_toNat]
  by_cases h7 : c.toNat = 8232 ∨ c.toNat = 8233
  · rw [escapeChar, if_neg h1, if_neg h2, if_neg h3, if_neg h4, if_neg h5, if_neg h6,
      if_pos h7]
    rcases h7 with h7 | h7
    · rw [h7]
      have h8 : hexDigit (8232 % 16) = '8' := by decide
      rw [h8]
      simp only [List.cons_append, List.nil_append]
      rw [psb_u]
      rw [if_pos (by decide :
        (isHex '2' && isHex '0' && isHex '2' && isHex '8') = true)]
      have hn : ((hexVal '2' * 16 + hexVal '0') * 16 + hexVal '2') * 16 + hexVal '8'
          = 8232 := by decide
      rw [hn]
      rw [if_neg (by omega : ¬(55296 ≤ 8232 ∧ 8232 ≤ 57343))]
      have hc : Char.ofNat 8232 = c := by rw [← h7, Char.ofNat_toNat]
      rw [hc]
    · rw [h7]
      have h8 : hexDigit (8233 % 16) = '9' := by decide
      rw [h8]
      simp only [List.cons_append, List.nil_append]
      rw [psb_u]
      rw [if_pos (by decide :
        (isHex '2' && isHex '0' && isHex '2' && isHex '9') = true)]
      have hn : ((hexVal '2' * 16 + hexVal '0') * 16 + hexVal '2') * 16 + hexVal '9'
          = 8233 := by decide
      rw [hn]
      rw [if_neg (by omega : ¬(55296 ≤ 8233 ∧ 8233 ≤ 57343))]
      have hc : Char.ofNat 8233 = c := by rw [← h7, Char.ofNat_toNat]
      rw [hc]
  · rw [escapeChar, if_neg h1, if_neg h2, if_neg h3, if_neg h4, if_neg h5, if_neg h6,
      if_neg h7]
    have h32 : ¬(c.toNat < 32) := by
      intro hlt
      exact h6 (Or.inl hlt)
    simp only [List.cons_append, List.nil_append]
    exact psb_other x h1 h2 h32

/-- Round trip for one quoted string: parsing the escaped form followed by
the closing quote recovers the original characters. -/
theorem parseStringBody_escape (s : List Char) (t : List Char) :
    parseStringBody (escapeString s ++ '"' :: t) = some (s, t) := by
  induction s with
  | nil => exact psb_close t
  | cons c s2 ih =>
    rw [escapeString, List.append_assoc, parseStringBody_escapeChar, ih]
    rfl

theorem psb_nil : parseStringBody [] = none := rfl

theorem psb_backslash_nil : parseStringBody ['\\'] = none := by decide

theorem psb_u_short {l : List Char} (h : l.length ≤ 3) :
    parseStringBody ('\\' :: 'u' :: l) = none := by
  rcases l with _ | ⟨a, _ | ⟨b, _ | ⟨g, _ | ⟨d, r⟩⟩⟩⟩
  · simp [parseStringBody]
  · simp [parseStringBody]
  · simp [parseStringBody]
  · simp [parseStringBody]
  · simp at h

/-- A strict prefix of a single character's escape sequence never parses. -/
theorem psb_strictpre_escapeChar {c : Char} {q : List Char}
    (hq : isPre q (escapeChar c)) (hne : q ≠ escapeChar c) :
    parseStringBody q = none := by
  have two : ∀ e : Char, isPre q ['\\', e] → q ≠ ['\\', e] → parseStringBody q = none := by
    intro e hpre hn
    rcases isPre_cons_cases hpre with rfl | ⟨q2, rfl, h2⟩
    · exact psb_nil
    rcases isPre_cons_cases h2 with rfl | ⟨q3, rfl, h3⟩
    · exact psb_backslash_nil
    · have := isPre_of_nil h3
      subst this
      exact absurd rfl hn
  have six : ∀ x1 x2 x3 x4 : Char, isPre q ['\\', 'u', x1, x2, x3, x4] →
      q ≠ ['\\', 'u', x1, x2, x3, x4] → parseStringBody q = none := by
    intro x1 x2 x3 x4 hpre hn
    rcases isPre_cons_cases hpre with rfl | ⟨q2, rfl, h2⟩
    · exact psb_nil
    rcases isPre_cons_cases h2 with rfl | ⟨q3, rfl, h3⟩
    · exact psb_backslash_nil
    have hlen : q3.length ≤ 4 := by
      have := isPre_length h3
      simpa using this
    have hlt : q3.length ≤ 3 := by
      rcases Nat.lt_or_ge q3.length 4 with h | h
      · omega
      · exfalso
        obtain ⟨r, hr⟩ := h3
        have hr4 : r = [] := by
          have := congrArg List.length hr
          simp at this
          have : r.length = 0 := by omega
          exact List.length_eq_zero.mp this
        subst hr4
        simp at hr
        subst hr
        exact hn rfl
    exact psb_u_short hlt
  rw [escapeChar] at hq hne
  by_cases h1 : c = '"'
  · rw [if_pos h1] at hq hne; exact two _ hq hne
  rw [if_neg h1] at hq hne
  by_cases h2 : c = '\\'
  · rw [if_pos h2] at hq hne; exact two _ hq hne
  rw [if_neg h2] at hq hne
  by_cases h3 : c = '\n'
  · rw [if_pos h3] at hq hne; exact two _ hq hne
  rw [if_neg h3] at hq hne
  by_cases h4 : c = '\r'
  · rw [if_pos h4] at hq hne; exact two _ hq hne
  rw [if_neg h4] at hq hne
  by_cases h5 : c = '\t'
  · rw [if_pos h5] at hq hne; exact two _ hq hne
  rw [if_neg h5] at hq hne
  by_cases h6 : c.toNat < 32 ∨ c = '<' ∨ c = '>' ∨ c = '&'
  · rw [if_pos h6] at hq hne; exact six _ _ _ _ hq hne
  rw [if_neg h6] at hq hne
  by_cases h7 : c.toNat = 8232 ∨ c.toNat = 8233
  · rw [if_pos h7] at hq hne; exact six _ _ _ _ hq hne
  · rw [if_neg h7] at hq hne
    rcases isPre_cons_cases hq with rfl | ⟨q2, rfl, hq2⟩
    · exact psb_nil
    · have := isPre_of_nil hq2
      subst this
      exact absurd rfl hne

/-- A prefix of an escaped string body (closing quote not yet reached)
never parses: the parse either dies inside an escape sequence or runs off
the end of the input. -/
theorem psb_pre_escape_none {s q : List Char} (hq : isPre q (escapeString s)) :
    parseStringBody q = none := by
  induction s generalizing q with
  | nil =>
    have := isPre_of_nil (by simpa [escapeString] using hq)
    subst this
    exact psb_nil
  | cons c s2 ih =>
    rw [escapeString] at hq
    rcases isPre_append_cases hq with h | ⟨q2, rfl, h2⟩
    · by_cases he : q = escapeChar c
      · subst he
        have hst := parseStringBody_escapeChar c []
        rw [List.append_nil] at hst
        rw [hst, psb_nil]
        rfl
      · exact psb_strictpre_escapeChar h he
    · rw [parseStringBody_escapeChar, ih h2]
      rfl

/-- Dichotomy for a prefix of a quoted escaped string followed by `tail`:
either the parse fails, or the prefix covers the whole quoted string and
the parse succeeds with exactly the original characters, leaving a prefix
of `tail`. -/
theorem psb_pre_quoted (s tail : List Char) {q : List Char}
    (hq : isPre q (escapeString s ++ '"' :: tail)) :
    parseStringBody q = none ∨
    ∃ t2, q = escapeString s ++ '"' :: t2 ∧ isPre t2 tail ∧
      parseStringBody q = some (s, t2) := by
  rcases isPre_append_cases hq with h | ⟨q2, rfl, h2⟩
  · exact Or.inl (psb_pre_escape_none h)
  · rcases isPre_cons_cases h2 with rfl | ⟨t2, rfl, h3⟩
    · rw [List.append_nil]
      exact Or.inl (psb_pre_escape_none (isPre_refl _))
    · exact Or.inr ⟨t2, rfl, h3, parseStringBody_escape s t2⟩

theorem pm_zero (l : List Char) (acc : Message) : parseMembers 0 l acc = none := by
  rw [parseMembers.eq_def]

theorem pm_nil (fuel : Nat) (acc : Message) : parseMembers fuel [] acc = none := by
  cases fuel with
  | zero => exact pm_zero [] acc
  | succ f => rw [parseMembers.eq_def]

theorem escString_user : escapeString ['u', 's', 'e', 'r'] = ['u', 's', 'e', 'r'] := by
  decide

theorem escString_text : escapeString ['t', 'e', 'x', 't'] = ['t', 'e', 'x', 't'] := by
  decide

/-- Parsing the encoded `text` member and closing brace succeeds and
assigns the `text` field. -/
theorem pm_last (K : Nat) (t : List Char) (acc : Message) :
    parseMembers (K + 1) (lastMember t) acc = some (⟨acc.user, t⟩, []) := by
  have hkey := parseStringBody_escape ['t', 'e', 'x', 't']
    (':' :: '"' :: (escapeString t ++ ['"', '}']))
  rw [escString_text] at hkey
  simp only [List.cons_append, List.nil_append] at hkey
  have hval := parseStringBody_escape t ['}']
  rw [parseMembers.eq_def]
  simp only [lastMember]
  simp [hkey, hval, skipWs, isWs, setField]

/-- Parsing the full encoded member list succeeds and reconstructs the
message, whatever the starting accumulator. -/
theorem pm_members (K : Nat) (u t : List Char) (acc : Message) :
    parseMembers (K + 2) (membersStr u t) acc = some (⟨u, t⟩, []) := by
  have hkey := parseStringBody_escape ['u', 's', 'e', 'r']
    (':' :: '"' :: (escapeString u ++ ('"' :: ',' :: lastMember t)))
  rw [escString_user] at hkey
  simp only [List.cons_append, List.nil_append] at hkey
  have hval := parseStringBody_escape u (',' :: lastMember t)
  have hlast := pm_last K t (setField acc ['u', 's', 'e', 'r'] u)
  rw [lastMember] at hlast
  simp [setField] at hlast
  rw [parseMembers.eq_def]
  simp only [membersStr]
  simp [hkey, hval, skipWs, isWs, hlast, setField]

/-- Round trip: the server's decode of the client's encode yields the
original message (`json.Unmarshal` inverts `json.Marshal` on `Message`). -/
theorem unmarshal_marshal (m : Message) :
    unmarshalMessage (marshalMessage m) = some m := by
  obtain ⟨u, t⟩ := m
  have hfuel : (marshalMessage ⟨u, t⟩).length + 1 = (membersStr u t).length + 2 := by
    simp [marshalMessage]
  have hmem : membersStr u t =
      '"' :: ('u' :: 's' :: 'e' :: 'r' :: '"' :: ':' :: '"' ::
        (escapeString u ++ ('"' :: ',' :: lastMember t))) := by
    rw [membersStr]
  rw [unmarshalMessage.eq_def, marshalMessage]
  rw [skipWs_cons_not (by decide)]
  simp only []
  rw [if_pos (trivial)]
  rw [show ('{' :: membersStr u t).length + 1 = (membersStr u t).length + 2 from by simp]
  rw [hmem, skipWs_cons_not (by decide)]
  simp only []
  rw [if_neg (by decide : ¬('"' : Char) = '}')]
  rw [← hmem]
  rw [pm_members]
  simp [skipWs]

/-- A strict prefix of the encoded `text` member (with its closing brace)
never parses as a member list. -/
theorem pm_last_pre (fuel : Nat) (acc : Message) (t w : List Char)
    (hw : isPre w (lastMember t)) (hne : w ≠ lastMember t) :
    parseMembers fuel w acc = none := by
  cases fuel with
  | zero => exact pm_zero w acc
  | succ f =>
    rw [lastMember] at hw hne
    rcases isPre_cons_cases hw with rfl | ⟨q2, rfl, h2⟩
    · exact pm_nil _ _
    have h2x : isPre q2 (escapeString ['t', 'e', 'x', 't'] ++
        '"' :: (':' :: '"' :: (escapeString t ++ ['"', '}']))) := by
      rw [escString_text]
      simpa using h2
    rcases psb_pre_quoted ['t', 'e', 'x', 't'] _ h2x with hnone | ⟨t2, rfl, hpre2, hsome⟩
    · rw [parseMembers.eq_def]
      simp [hnone]
    rcases isPre_cons_cases hpre2 with rfl | ⟨t3, rfl, hpre3⟩
    · rw [parseMembers.eq_def]
      simp [hsome, skipWs]
    rcases isPre_cons_cases hpre3 with rfl | ⟨t4, rfl, hpre4⟩
    · rw [parseMembers.eq_def]
      simp [hsome, skipWs, isWs]
    rcases psb_pre_quoted t ['}'] hpre4 with hnone2 | ⟨t5, rfl, hpre5, hsome2⟩
    · rw [parseMembers.eq_def]
      simp [hsome, hnone2, skipWs, isWs]
    rcases isPre_cons_cases hpre5 with rfl | ⟨t6, rfl, hpre6⟩
    · rw [parseMembers.eq_def]
      simp [hsome, hsome2, skipWs, isWs]
    · have h6 := isPre_of_nil hpre6
      subst h6
      exfalso
      apply hne
      simp [escString_text]

/-- A strict prefix of the full encoded member list never parses. -/
theorem pm_members_pre (fuel : Nat) (acc : Message) (u t w : List Char)
    (hw : isPre w (membersStr u t)) (hne : w ≠ membersStr u t) :
    parseMembers fuel w acc = none := by
  cases fuel with
  | zero => exact pm_zero w acc
  | succ f =>
    rw [membersStr] at hw hne
    rcases isPre_cons_cases hw with rfl | ⟨q2, rfl, h2⟩
    · exact pm_nil _ _
    have h2x : isPre q2 (escapeString ['u', 's', 'e', 'r'] ++
        '"' :: (':' :: '"' :: (escapeString u ++ ('"' :: ',' :: lastMember t)))) := by
      rw [escString_user]
      simpa using h2
    rcases psb_pre_quoted ['u', 's', 'e', 'r'] _ h2x with hnone | ⟨t2, rfl, hpre2, hsome⟩
    · rw [parseMembers.eq_def]
      simp [hnone]
    rcases isPre_cons_cases hpre2 with rfl | ⟨t3, rfl, hpre3⟩
    · rw [parseMembers.eq_def]
      simp [hsome, skipWs]
    rcases isPre_cons_cases hpre3 with rfl | ⟨t4, rfl, hpre4⟩
    · rw [parseMembers.eq_def]
      simp [hsome, skipWs, isWs]
    rcases psb_pre_quoted u ((',' : Char) :: lastMember t) hpre4 with
      hnone2 | ⟨t5, rfl, hpre5, hsome2⟩
    · rw [parseMembers.eq_def]
      simp [hsome, hnone2, skipWs, isWs]
    rcases isPre_cons_cases hpre5 with rfl | ⟨t6, rfl, hpre6⟩
    · rw [parseMembers.eq_def]
      simp [hsome, hsome2, skipWs, isWs]
    by_cases heq : t6 = lastMember t
    · subst heq
      exfalso
      apply hne
      simp [escString_user]
    · have hrec : ∀ acc2 : Message, parseMembers f (skipWs t6) acc2 = none := by
        intro acc2
        rcases isPre_cons_cases (by rw [lastMember] at hpre6; exact hpre6 :
            isPre t6 ('"' :: ('t' :: 'e' :: 'x' :: 't' :: '"' :: ':' :: '"' ::
              (escapeString t ++ ['"', '}'])))) with rfl | ⟨t7, rfl, hpre7⟩
        · rw [show skipWs [] = [] from rfl]
          exact pm_nil f acc2
        · rw [skipWs_cons_not (by decide)]
          exact pm_last_pre f acc2 t _ (by rw [lastMember]; exact hpre6) heq
      rw [parseMembers.eq_def]
      simp [hsome, hsome2, skipWs, isWs, hrec]

/-- A strict prefix of an encoded message never decodes: truncated JSON
always fails. -/
theorem unmarshal_pre_none (m : Message) (p : List Char)
    (hp : isPre p (marshalMessage m)) (hne : p ≠ marshalMessage m) :
    unmarshalMessage p = none := by
  obtain ⟨u, t⟩ := m
  rw [marshalMessage] at hp hne
  rcases isPre_cons_cases hp with rfl | ⟨q, rfl, hq⟩
  · rw [unmarshalMessage.eq_def]
    simp [skipWs]
  have hqne : q ≠ membersStr u t := by
    intro h
    exact hne (by rw [h])
  rw [unmarshalMessage.eq_def]
  rw [skipWs_cons_not (by decide)]
  simp only []
  rw [if_pos (trivial)]
  have hpm : ∀ fuel : Nat, parseMembers fuel q ⟨[], []⟩ = none := fun fuel =>
    pm_members_pre fuel ⟨[], []⟩ u t q hq hqne
  rcases isPre_cons_cases (by rw [membersStr] at hq; exact hq :
      isPre q ('"' :: ('u' :: 's' :: 'e' :: 'r' :: '"' :: ':' :: '"' ::
        (escapeString u ++ ('"' :: ',' :: lastMember t))))) with rfl | ⟨q2, rfl, hq2⟩
  · simp [skipWs]
  · rw [skipWs_cons_not (by decide)]
    simp only []
    rw [if_neg (by decide : ¬('"' : Char) = '}')]
    rw [hpm]

theorem takeBytes_of_le {l : List Char} {k : Nat} (h : utf8Len l ≤ k) :
    takeBytes k l = l := by
  induction l generalizing k with
  | nil => rw [takeBytes]
  | cons c r ih =>
    rw [utf8Len] at h
    rw [takeBytes, if_pos (by omega), ih (by omega)]

theorem utf8Len_takeBytes_le (k : Nat) (l : List Char) :
    utf8Len (takeBytes k l) ≤ k := by
  induction l generalizing k with
  | nil =>
    rw [takeBytes, utf8Len]
    omega
  | cons c r ih =>
    rw [takeBytes]
    by_cases h : c.utf8Size ≤ k
    · rw [if_pos h, utf8Len]
      have := ih (k - c.utf8Size)
      omega
    · rw [if_neg h, utf8Len]
      omega

theorem takeBytes_isPre (k : Nat) (l : List Char) : isPre (takeBytes k l) l := by
  induction l generalizing k with
  | nil =>
    rw [takeBytes]
    exact isPre_nil []
  | cons c r ih =>
    rw [takeBytes]
    by_cases h : c.utf8Size ≤ k
    · rw [if_pos h]
      exact isPre_cons c (ih _)
    · rw [if_neg h]
      exact isPre_nil _

theorem take_append_len (x y : List Char) : (x ++ y).take x.length = x := by
  induction x with
  | nil => simp
  | cons a x2 ih => simp [ih]

/-- The JSON server decodes exactly the received bytes: the buffer slice
`buf[:n]` is the received prefix, whatever the leftover buffer holds. -/
theorem jsonServerProcess_eq (wire junk : List Char) :
    jsonServerProcess wire junk = unmarshalMessage (takeBytes 1024 wire) := by
  rw [jsonServerProcess]
  simp only [take_append_len]

theorem readLine_no_nl {l : List Char} (h : '\n' ∉ l) :
    readLine l = ((l, false), []) := by
  induction l with
  | nil => rw [readLine]
  | cons c r ih =>
    have h1 : ¬c = '\n' := fun hc => h (by rw [hc]; exact List.mem_cons_self _ _)
    have h2 : '\n' ∉ r := fun hm => h (List.mem_cons_of_mem _ hm)
    rw [readLine, if_neg h1, ih h2]

theorem readLine_append_nl {l : List Char} (rest : List Char) (h : '\n' ∉ l) :
    readLine (l ++ '\n' :: rest) = ((l ++ ['\n'], true), rest) := by
  induction l with
  | nil =>
    rw [List.nil_append, readLine, if_pos rfl]
    rfl
  | cons c r ih =>
    have h1 : ¬c = '\n' := fun hc => h (by rw [hc]; exact List.mem_cons_self _ _)
    have h2 : '\n' ∉ r := fun hm => h (List.mem_cons_of_mem _ hm)
    rw [List.cons_append, readLine, if_neg h1, ih h2]
    simp

theorem readLine_false_data {l d r : List Char}
    (h : readLine l = ((d, false), r)) : d = l ∧ r = [] ∧ '\n' ∉ l := by
  induction l generalizing d r with
  | nil =>
    rw [readLine] at h
    injection h with h1 h2
    injection h1 with h3 h4
    subst h3
    subst h2
    exact ⟨rfl, rfl, by simp⟩
  | cons c cs ih =>
    by_cases hc : c = '\n'
    · subst hc
      rw [readLine, if_pos rfl] at h
      injection h with h1 h2
      injection h1 with h3 h4
      cases h4
    · rw [readLine, if_neg hc] at h
      rcases hp : readLine cs with ⟨⟨d2, ok⟩, r2⟩
      rw [hp] at h
      injection h with h1 h2
      injection h1 with h3 h4
      subst h3
      subst h4
      subst h2
      obtain ⟨he, hr, hn⟩ := ih hp
      subst he
      exact ⟨rfl, hr, by
        intro hm
        rcases List.mem_cons.mp hm with hm | hm
        · exact hc hm.symm
        · exact hn hm⟩

theorem readLine_true_shape {l d r : List Char}
    (h : readLine l = ((d, true), r)) :
    ∃ d2, d = d2 ++ ['\n'] ∧ '\n' ∉ d2 ∧ l = d2 ++ '\n' :: r := by
  induction l generalizing d r with
  | nil =>
    rw [readLine] at h
    injection h with h1 h2
    injection h1 with h3 h4
    cases h4
  | cons c cs ih =>
    by_cases hc : c = '\n'
    · subst hc
      rw [readLine, if_pos rfl] at h
      injection h with h1 h2
      injection h1 with h3 h4
      subst h3
      subst h2
      exact ⟨[], rfl, by simp, rfl⟩
    · rw [readLine, if_neg hc] at h
      rcases hp : readLine cs with ⟨⟨d2, ok⟩, r2⟩
      rw [hp] at h
      injection h with h1 h2
      injection h1 with h3 h4
      subst h3
      subst h4
      subst h2
      obtain ⟨d3, hd3, hn3, hl3⟩ := ih hp
      refine ⟨c :: d3, by rw [hd3, List.cons_append], ?_, by
        rw [hl3, List.cons_append]⟩
      intro hm
      rcases List.mem_cons.mp hm with hm | hm
      · exact hc hm.symm
      · exact hn3 hm

theorem readLine_true_length {l d r : List Char}
    (h : readLine l = ((d, true), r)) : r.length < l.length := by
  obtain ⟨d2, _, _, hl⟩ := readLine_true_shape h
  rw [hl, List.length_append, List.length_cons]
  omega

theorem esw_fuel {f1 f2 : Nat} {l : List Char} (h1 : l.length < f1)
    (h2 : l.length < f2) : echoServerWrites f1 l = echoServerWrites f2 l := by
  induction f1 generalizing f2 l with
  | zero => omega
  | succ f ih =>
    cases f2 with
    | zero => omega
    | succ g =>
      rw [echoServerWrites, echoServerWrites]
      rcases hr : readLine l with ⟨⟨line, ok⟩, rest⟩
      cases ok
      · rfl
      · have hlt := readLine_true_length hr
        simp only []
        rw [ih (by omega) (by omega : rest.length < g)]

theorem echoServer_cons {input line rest : List Char}
    (h : readLine input = ((line, true), rest)) :
    echoServer input = line :: echoServer rest := by
  have hlt := readLine_true_length h
  rw [echoServer, echoServer, echoServerWrites, h]
  simp only []
  rw [esw_fuel (by omega : rest.length < input.length) (Nat.lt_succ_self _)]

theorem echoServer_nil {input d r : List Char}
    (h : readLine input = ((d, false), r)) : echoServer input = [] := by
  rw [echoServer, echoServerWrites, h]

theorem echoServer_line (l rest : List Char) (h : '\n' ∉ l) :
    echoServer (l ++ '\n' :: rest) = (l ++ ['\n']) :: echoServer rest :=
  echoServer_cons (readLine_append_nl rest h)

theorem echoServer_stop (l : List Char) (h : '\n' ∉ l) : echoServer l = [] :=
  echoServer_nil (readLine_no_nl h)

theorem emr_closed (fuel : Nat) : echoMachineRun fuel EchoState.closed = [] := by
  cases fuel with
  | zero => rw [echoMachineRun]
  | succ f => simp [echoMachineRun, echoStep]

theorem emr_echoing (fuel : Nat) (rest : List Char)
    (h : rest.length + 2 ≤ fuel) :
    echoMachineRun fuel (.echoing rest) =
      (echoServer rest).map .echo ++ [.close] := by
  induction fuel generalizing rest with
  | zero => omega
  | succ f ih =>
    rcases hr : readLine rest with ⟨⟨line, ok⟩, r2⟩
    rw [echoMachineRun]
    cases ok
    · rw [show echoStep (.echoing rest) = (.closed, some .close) from by
        rw [echoStep, hr]]
      simp only []
      rw [emr_closed, echoServer_nil hr]
      rfl
    · rw [show echoStep (.echoing rest) = (.echoing r2, some (.echo line)) from by
        rw [echoStep, hr]]
      simp only []
      have hlt := readLine_true_length hr
      rw [ih r2 (by omega), echoServer_cons hr]
      rfl

theorem emr_connected (fuel : Nat) (rest : List Char)
    (h : rest.length + 2 ≤ fuel) :
    echoMachineRun fuel (.connected rest) =
      (echoServer rest).map .echo ++ [.close] := by
  cases fuel with
  | zero => omega
  | succ f =>
    rcases hr : readLine rest with ⟨⟨line, ok⟩, r2⟩
    rw [echoMachineRun]
    cases ok
    · rw [show echoStep (.connected rest) = (.closed, some .close) from by
        rw [echoStep, hr]]
      simp only []
      rw [emr_closed, echoServer_nil hr]
      rfl
    · rw [show echoStep (.connected rest) = (.echoing r2, some (.echo line)) from by
        rw [echoStep, hr]]
      simp only []
      have hlt := readLine_true_length hr
      rw [emr_echoing f r2 (by omega), echoServer_cons hr]
      rfl

/-- The event trace of a run: one accept, the echoed lines, one close. -/
theorem echoTrace_eq (input : List Char) :
    echoTrace input = .accept :: ((echoServer input).map .echo ++ [.close]) := by
  rw [echoTrace, echoMachineRun]
  rw [show echoStep (.listening input) = (.connected input, some .accept) from by
    rw [echoStep]]
  simp only []
  rw [emr_connected (input.length + 2) input (Nat.le_refl _)]

theorem countAccepts_trace (input : List Char) :
    countAccepts (echoTrace input) = 1 := by
  rw [echoTrace_eq]
  have h0 : ∀ ls : List (List Char),
      countAccepts (ls.map .echo ++ [.close]) = 0 := by
    intro ls
    induction ls with
    | nil => rfl
    | cons x xs ih => simpa [countAccepts] using ih
  rw [countAccepts, h0]

theorem eswW_fst (wf : Nat → Bool) (i fuel : Nat) (input : List Char) :
    (echoServerWritesW wf i fuel input).map Prod.fst =
      echoServerWrites fuel input := by
  induction fuel generalizing i input with
  | zero => rfl
  | succ f ih =>
    rcases hr : readLine input with ⟨⟨line, ok⟩, rest⟩
    rw [echoServerWritesW, echoServerWrites, hr]
    cases ok
    · rfl
    · rw [List.map_cons, ih]

theorem echoServer_lines_shape (fuel : Nat) (input l : List Char)
    (hmem : l ∈ echoServerWrites fuel input) :
    l.getLast? = some '\n' ∧ '\n' ∉ l.dropLast := by
  induction fuel generalizing input with
  | zero => simp [echoServerWrites] at hmem
  | succ f ih =>
    rcases hr : readLine input with ⟨⟨line, ok⟩, rest⟩
    rw [echoServerWrites, hr] at hmem
    cases ok
    · simp at hmem
    · rcases List.mem_cons.mp hmem with rfl | hmem2
      · obtain ⟨d2, hd2, hn2, _⟩ := readLine_true_shape hr
        subst hd2
        exact ⟨List.getLast?_concat _, by rwa [List.dropLast_concat]⟩
      · exact ih rest hmem2

/-- C1: for every Record with string fields `user` and `text`, encoding it
(JSON marshal as the client does) and then decoding the resulting bytes
(JSON unmarshal as the server does) yields a Record with identical `user`
and `text` values, provided the encoded byte sequence is at most 1024
bytes and is presented to the decoder whole, in one read. -/
theorem json_roundtrip_within_buffer (u t junk : List Char)
    (h : utf8Len (marshalMessage ⟨u, t⟩) ≤ 1024) :
    jsonServerProcess (marshalMessage ⟨u, t⟩) junk = some ⟨u, t⟩ := by
  rw [jsonServerProcess_eq, takeBytes_of_le h, unmarshal_marshal]

theorem json_roundtrip_within_buffer_witness :
    utf8Len (marshalMessage ⟨['A', 'l', 'i', 'c', 'e'],
      ['H', 'e', 'l', 'l', 'o', ' ', 's', 'e', 'r', 'v', 'e', 'r', '!']⟩) ≤ 1024 ∧
    jsonServerProcess (marshalMessage ⟨['A', 'l', 'i', 'c', 'e'],
        ['H', 'e', 'l', 'l', 'o', ' ', 's', 'e', 'r', 'v', 'e', 'r', '!']⟩) [] =
      some ⟨['A', 'l', 'i', 'c', 'e'],
        ['H', 'e', 'l', 'l', 'o', ' ', 's', 'e', 'r', 'v', 'e', 'r', '!']⟩ :=
  ⟨by decide, json_roundtrip_within_buffer _ _ [] (by decide)⟩

/-- C2: for any line `L` without an embedded newline, when the echo server
receives `L` followed by a newline it writes back exactly those bytes,
trailing newline included, and the client's line-read of that response
returns exactly `L` followed by the newline. -/
theorem echo_line_roundtrip (L : List Char) (h : '\n' ∉ L) :
    concatWrites (echoServer (L ++ ['\n'])) = L ++ ['\n'] ∧
    echoClientResp (concatWrites (echoServer (L ++ ['\n']))) = L ++ ['\n'] ∧
    echoClientReadOk (concatWrites (echoServer (L ++ ['\n']))) = true := by
  have hs : echoServer (L ++ ['\n']) = [L ++ ['\n']] := by
    have hline := echoServer_line L [] h
    rw [echoServer_stop [] (by simp)] at hline
    exact hline
  have hw : concatWrites (echoServer (L ++ ['\n'])) = L ++ ['\n'] := by
    rw [hs, concatWrites, concatWrites, List.append_nil]
  refine ⟨hw, ?_, ?_⟩
  · rw [hw, echoClientResp, readLine_append_nl [] h]
  · rw [hw, echoClientReadOk, readLine_append_nl [] h]

theorem echo_line_roundtrip_witness :
    '\n' ∉ (['H', 'i'] : List Char) ∧
    (concatWrites (echoServer (['H', 'i'] ++ ['\n'])) = ['H', 'i'] ++ ['\n'] ∧
     echoClientResp (concatWrites (echoServer (['H', 'i'] ++ ['\n']))) =
       ['H', 'i'] ++ ['\n'] ∧
     echoClientReadOk (concatWrites (echoServer (['H', 'i'] ++ ['\n']))) = true) :=
  ⟨by decide, echo_line_roundtrip ['H', 'i'] (by decide)⟩

/-- C3, counterexample: a failed line-read does not always yield an empty
response — when the peer sends bytes without a newline and closes, the
read fails yet the response is the nonempty partial data. -/
theorem echo_client_read_failure_counterexample :
    echoClientReadOk ['a', 'b'] = false ∧ ¬echoClientResp ['a', 'b'] = [] := by
  decide

/-- C3, amended: when the echo client's single line-read fails, the
response is exactly the bytes received before the failure (so it is empty
precisely when nothing was received), and the read error is discarded, not
surfaced: the client prints that response and exits normally. -/
theorem echo_client_read_failure_partial (s : List Char)
    (h : echoClientReadOk s = false) :
    echoClientResp s = s ∧ '\n' ∉ s ∧ (echoClientResp s = [] ↔ s = []) := by
  rcases hr : readLine s with ⟨⟨d, ok⟩, r⟩
  have hok : ok = false := by
    rw [echoClientReadOk, hr] at h
    exact h
  subst hok
  obtain ⟨hd, hr0, hn⟩ := readLine_false_data hr
  subst hd
  rw [echoClientResp, hr]
  exact ⟨rfl, hn, Iff.rfl⟩

theorem echo_client_read_failure_partial_witness :
    echoClientReadOk ['a', 'b'] = false ∧
    (echoClientResp ['a', 'b'] = ['a', 'b'] ∧ '\n' ∉ (['a', 'b'] : List Char) ∧
      (echoClientResp ['a', 'b'] = [] ↔ (['a', 'b'] : List Char) = [])) :=
  ⟨by decide, echo_client_read_failure_partial ['a', 'b'] (by decide)⟩

/-- C4: for every payload whose encoded size exceeds the 1024-byte buffer,
the single read silently truncates it to the buffer capacity and decoding
the truncated bytes fails — a strict prefix of the encoded JSON object is
never a valid Record encoding. -/
theorem json_oversize_truncation_decode_fails (m : Message) (junk : List Char)
    (h : 1024 < utf8Len (marshalMessage m)) :
    jsonServerProcess (marshalMessage m) junk = none := by
  rw [jsonServerProcess_eq]
  refine unmarshal_pre_none m _ (takeBytes_isPre _ _) ?_
  intro he
  have hle := utf8Len_takeBytes_le 1024 (marshalMessage m)
  rw [he] at hle
  omega

theorem json_oversize_truncation_decode_fails_witness :
    1024 < utf8Len (marshalMessage ⟨[], List.replicate 260 (Char.ofNat 65536)⟩) ∧
    jsonServerProcess (marshalMessage ⟨[], List.replicate 260 (Char.ofNat 65536)⟩)
      [] = none :=
  ⟨by decide, json_oversize_truncation_decode_fails
    ⟨[], List.replicate 260 (Char.ofNat 65536)⟩ [] (by decide)⟩

/-- C5: the JSON server reads once into the fixed 1024-byte buffer and
decodes exactly the received bytes `buf[:n]`: the result equals decoding
the truncated wire, is unchanged by whatever the buffer holds past index
`n`, and the received byte count never exceeds 1024. -/
theorem json_server_decodes_exactly_received (wire junk junk2 : List Char) :
    jsonServerProcess wire junk = unmarshalMessage (takeBytes 1024 wire) ∧
    jsonServerProcess wire junk = jsonServerProcess wire junk2 ∧
    utf8Len (takeBytes 1024 wire) ≤ 1024 :=
  ⟨jsonServerProcess_eq wire junk,
    by rw [jsonServerProcess_eq, jsonServerProcess_eq],
    utf8Len_takeBytes_le 1024 wire⟩

/-- C6: each server accepts exactly one connection per run: on a two-line
stream the echo server's trace is one accept, both echoes in order, one
close; every run's trace has exactly one accept event; no step ever
re-enters the pre-accept listening state; and every state holds at most
one active connection. -/
theorem servers_single_accept_invariant (l1 l2 input : List Char)
    (s : EchoState) (h1 : '\n' ∉ l1) (h2 : '\n' ∉ l2) :
    echoTrace (l1 ++ '\n' :: (l2 ++ ['\n'])) =
      [.accept, .echo (l1 ++ ['\n']), .echo (l2 ++ ['\n']), .close] ∧
    countAccepts (echoTrace input) = 1 ∧
    isListeningState (echoStep s).1 = false ∧
    activeConns s ≤ 1 := by
  refine ⟨?_, countAccepts_trace input, ?_, ?_⟩
  · rw [echoTrace_eq, echoServer_line l1 _ h1, echoServer_line l2 [] h2,
      echoServer_stop [] (by simp)]
    rfl
  · cases s with
    | listening i => simp [echoStep, isListeningState]
    | connected rest =>
      rcases hr : readLine rest with ⟨⟨line, ok⟩, r2⟩
      cases ok <;> simp [echoStep, hr, isListeningState]
    | echoing rest =>
      rcases hr : readLine rest with ⟨⟨line, ok⟩, r2⟩
      cases ok <;> simp [echoStep, hr, isListeningState]
    | closed => simp [echoStep, isListeningState]
  · cases s <;> simp [activeConns]

theorem servers_single_accept_invariant_witness :
    ('\n' ∉ (['a'] : List Char) ∧ '\n' ∉ (['b'] : List Char)) ∧
    (echoTrace (['a'] ++ '\n' :: (['b'] ++ ['\n'])) =
      [.accept, .echo (['a'] ++ ['\n']), .echo (['b'] ++ ['\n']), .close] ∧
     countAccepts (echoTrace []) = 1 ∧
     isListeningState (echoStep .closed).1 = false ∧
     activeConns .closed ≤ 1) :=
  ⟨⟨by decide, by decide⟩,
    servers_single_accept_invariant ['a'] ['b'] [] .closed (by decide) (by decide)⟩

/-- C7: in the JSON server every accept, read and decode error is fatal —
the run aborts with the corresponding error and nothing is recovered or
retried; the run succeeds exactly when accept and read succeed and the
received bytes decode. -/
theorem json_server_errors_fatal (a r : Bool) (wire junk : List Char) :
    jsonServerRun false r wire junk = .error .acceptErr ∧
    jsonServerRun true false wire junk = .error .readErr ∧
    (jsonServerRun true true wire junk = .error .decodeErr ↔
      jsonServerProcess wire junk = none) ∧
    ((∃ m, jsonServerRun a r wire junk = .ok m) ↔
      a = true ∧ r = true ∧ ∃ m, jsonServerProcess wire junk = some m) := by
  refine ⟨rfl, rfl, ?_, ?_⟩
  · rcases hp : jsonServerProcess wire junk with _ | m <;>
      simp [jsonServerRun, hp]
  · cases a <;> cases r <;>
      rcases hp : jsonServerProcess wire junk with _ | m <;>
        simp [jsonServerRun, hp]

/-- C8: any read failure in the echo server — including end of stream when
the peer closes without a final newline-terminated line — moves the
machine from echoing to closed, emitting only the close event, after which
the run is over (every trace ends with close); from the echoing state the
only reachable states are echoing and closed, never listening. -/
theorem echo_server_read_failure_terminates (input rest q d r : List Char)
    (h : readLine rest = ((d, false), r)) :
    (echoTrace input).getLast? = some .close ∧
    echoStep (.echoing rest) = (.closed, some .close) ∧
    isEchoingOrClosed (echoStep (.echoing q)).1 = true := by
  refine ⟨?_, ?_, ?_⟩
  · rw [echoTrace_eq,
      show (EchoEvent.accept :: ((echoServer input).map .echo ++ [.close])) =
        (EchoEvent.accept :: (echoServer input).map .echo) ++ [.close] from by
          rw [List.cons_append],
      List.getLast?_concat]
  · rw [echoStep, h]
  · rcases hr : readLine q with ⟨⟨line, ok⟩, r2⟩
    cases ok <;> simp [echoStep, hr, isEchoingOrClosed]

theorem echo_server_read_failure_terminates_witness :
    readLine [] = (([], false), []) ∧
    ((echoTrace ['x']).getLast? = some .close ∧
     echoStep (.echoing []) = (.closed, some .close) ∧
     isEchoingOrClosed (echoStep (.echoing ['y'])).1 = true) :=
  ⟨by decide, echo_server_read_failure_terminates ['x'] [] ['y'] [] [] (by decide)⟩

/-- C9: the result of the echo write is discarded: the echoed lines and
the number of loop iterations are identical for any two assignments of
write outcomes — the loop's continuation depends only on the line-read. -/
theorem echo_server_write_failure_ignored (wf wf2 : Nat → Bool)
    (input : List Char) :
    (echoServerW wf input).map Prod.fst = echoServer input ∧
    (echoServerW wf input).map Prod.fst = (echoServerW wf2 input).map Prod.fst ∧
    (echoServerW wf input).length = (echoServerW wf2 input).length := by
  have h1 : (echoServerW wf input).map Prod.fst = echoServer input := by
    rw [echoServerW, echoServer]
    exact eswW_fst wf 0 _ input
  have h2 : (echoServerW wf2 input).map Prod.fst = echoServer input := by
    rw [echoServerW, echoServer]
    exact eswW_fst wf2 0 _ input
  refine ⟨h1, by rw [h1, h2], ?_⟩
  have h3 := congrArg List.length (h1.trans h2.symm)
  simpa using h3

/-- C10: when a read returns an error with partial data, the echo server
discards the data: the failing step emits only the close event and nothing
further is written; every line the server ever echoes ends with a newline
that terminates it. -/
theorem echo_server_partial_line_discarded (input rest d r l : List Char)
    (hfail : readLine rest = ((d, false), r))
    (hmem : l ∈ echoServer input) :
    (echoStep (.echoing rest)).2 = some .close ∧
    echoServer rest = [] ∧
    l.getLast? = some '\n' ∧ '\n' ∉ l.dropLast := by
  rw [echoServer] at hmem
  refine ⟨?_, echoServer_nil hfail, (echoServer_lines_shape _ _ _ hmem).1,
    (echoServer_lines_shape _ _ _ hmem).2⟩
  rw [echoStep, hfail]

theorem echo_server_partial_line_discarded_witness :
    (readLine ['p'] = ((['p'], false), []) ∧
      ['a', '\n'] ∈ echoServer ['a', '\n']) ∧
    ((echoStep (.echoing ['p'])).2 = some .close ∧
     echoServer ['p'] = [] ∧
     (['a', '\n'] : List Char).getLast? = some '\n' ∧
     '\n' ∉ (['a', '\n'] : List Char).dropLast) :=
  ⟨⟨by decide, by decide⟩,
    echo_server_partial_line_discarded ['a', '\n'] ['p'] ['p'] [] ['a', '\n']
      (by decide) (by decide)⟩
